import Mathlib

/-!
Verification development for the podx secret-encryption engine.

Bytes (both file bytes and Go strings) are modelled as `List Char`.
Randomness (salts, nonces) and external cryptographic primitives
(AES-GCM, ChaCha20-Poly1305 cores, Argon2id, age, base64) are modelled
as explicit function parameters; the repository's own code is translated
faithfully on top of them.
-/

abbrev Bytes := List Char

/-- Models Go `strings.HasPrefix(l, pre)` (argument order: prefix first). -/
def hasPre : Bytes → Bytes → Bool
  | [], _ => true
  | _ :: _, [] => false
  | a :: as, b :: bs => a == b && hasPre as bs

/-- Models Go `strings.HasSuffix(l, suf)` (argument order: suffix first). -/
def hasSuf (suf l : Bytes) : Bool := hasPre suf.reverse l.reverse

/-- Models Go `strings.Index(l, c)` for a single-character separator, returning
the text before and after the first occurrence (`none` when absent). -/
def splitFirst (c : Char) : Bytes → Option (Bytes × Bytes)
  | [] => none
  | x :: xs =>
    if x = c then some ([], xs)
    else
      match splitFirst c xs with
      | some (pre, post) => some (x :: pre, post)
      | none => none

/-- Models Go `unicode.IsSpace`: the Latin-1 fast path (`\t`, `\n`,
`\v`, `\f`, `\r`, space, U+0085, U+00A0) plus the remaining code points
of the Unicode White_Space property (U+1680, U+2000..U+200A, U+2028,
U+2029, U+202F, U+205F, U+3000). -/
def goIsSpace (c : Char) : Bool :=
  let n := c.toNat
  n == 0x20 || (0x9 ≤ n && n ≤ 0xD) || n == 0x85 || n == 0xA0 ||
  n == 0x1680 || (0x2000 ≤ n && n ≤ 0x200A) ||
  n == 0x2028 || n == 0x2029 || n == 0x202F || n == 0x205F || n == 0x3000

/-- Models Go `strings.TrimSpace`. -/
def trimSpace (l : Bytes) : Bytes :=
  ((l.dropWhile goIsSpace).reverse.dropWhile goIsSpace).reverse

/-- Models `dropCR` from Go `bufio.ScanLines`: strips one trailing `\r`. -/
def dropCR (l : Bytes) : Bytes :=
  match l.reverse with
  | '\r' :: rest => rest.reverse
  | _ => l

/-- Worker for `scanLines`: `cur` holds the current token's characters in
reverse order. -/
def scanLinesGo (cur : Bytes) : Bytes → List Bytes
  | [] => if cur = [] then [] else [dropCR cur.reverse]
  | x :: xs =>
    if x = '\n' then dropCR cur.reverse :: scanLinesGo [] xs
    else scanLinesGo (x :: cur) xs

/-- Models the token stream of Go `bufio.Scanner` with the default `ScanLines`
split: tokens are newline-separated, each with a trailing `\r` stripped, a
final token without a newline is returned, and an empty input yields no
tokens. -/
def scanLines (text : Bytes) : List Bytes := scanLinesGo [] text

/-- Worker for `goSplit`: `cur` holds the current piece in reverse order. -/
def goSplitGo (c : Char) (cur : Bytes) : Bytes → List Bytes
  | [] => [cur.reverse]
  | x :: xs =>
    if x = c then cur.reverse :: goSplitGo c [] xs
    else goSplitGo c (x :: cur) xs

/-- Models Go `strings.Split(text, sep)` for a one-character separator:
always returns at least one piece and keeps empty pieces. -/
def goSplit (c : Char) (text : Bytes) : List Bytes := goSplitGo c [] text

/-- Models Go `strings.Join(ls, sep)` for a one-character separator. -/
def goJoin (c : Char) : List Bytes → Bytes
  | [] => []
  | [l] => l
  | l :: rest => l ++ c :: goJoin c rest

/-- The text of an env file given as a list of newline-terminated lines. -/
def joinNL (ls : List Bytes) : Bytes :=
  (ls.map (fun l => l ++ ['\n'])).flatten

/-! ## Crypto primitives (src/crypto) -/

/-- The closed set of symmetric algorithms from `crypto.Algorithm`
(`crypto/crypto.go`). -/
inductive Alg
  | aesGCM
  | chacha20
deriving DecidableEq

/-- Errors of the symmetric crypto layer: `invalid key size`,
`ciphertext too short`, and `decryption failed` (AEAD auth failure). -/
inductive CryptoErr
  | invalidKeySize
  | tooShort
  | authFailed
deriving DecidableEq

/-- Embeds `AESGCMEncrypt` (`crypto/aes_gcm.go`). The stdlib GCM core
`gcm.Seal` is the parameter `gcmSeal : key → nonce → plaintext → sealed`,
and the random 12-byte nonce drawn inside the Go function is the explicit
`nonce` argument. Output is `nonce ∥ sealed`. -/
def AESGCMEncrypt (gcmSeal : Bytes → Bytes → Bytes → Bytes)
    (nonce plaintext key : Bytes) : Except CryptoErr Bytes :=
  if key.length ≠ 32 then .error .invalidKeySize
  else .ok (nonce ++ gcmSeal key nonce plaintext)

/-- Embeds `AESGCMDecrypt` (`crypto/aes_gcm.go`): key-size check, 12-byte
nonce split, then the stdlib GCM open `gcmOpen : key → nonce → sealed →
Option plaintext`. -/
def AESGCMDecrypt (gcmOpen : Bytes → Bytes → Bytes → Option Bytes)
    (ciphertext key : Bytes) : Except CryptoErr Bytes :=
  if key.length ≠ 32 then .error .invalidKeySize
  else if ciphertext.length < 12 then .error .tooShort
  else
    match gcmOpen key (ciphertext.take 12) (ciphertext.drop 12) with
    | some plaintext => .ok plaintext
    | none => .error .authFailed

/-- Embeds `ChaCha20Encrypt` (`crypto/chacha.go`); same shape as
`AESGCMEncrypt` over the ChaCha20-Poly1305 core. -/
def ChaCha20Encrypt (chaSeal : Bytes → Bytes → Bytes → Bytes)
    (nonce plaintext key : Bytes) : Except CryptoErr Bytes :=
  if key.length ≠ 32 then .error .invalidKeySize
  else .ok (nonce ++ chaSeal key nonce plaintext)

/-- Embeds `ChaCha20Decrypt` (`crypto/chacha.go`); same shape as
`AESGCMDecrypt` over the ChaCha20-Poly1305 core. -/
def ChaCha20Decrypt (chaOpen : Bytes → Bytes → Bytes → Option Bytes)
    (ciphertext key : Bytes) : Except CryptoErr Bytes :=
  if key.length ≠ 32 then .error .invalidKeySize
  else if ciphertext.length < 12 then .error .tooShort
  else
    match chaOpen key (ciphertext.take 12) (ciphertext.drop 12) with
    | some plaintext => .ok plaintext
    | none => .error .authFailed

/-- Embeds `NewEncryptor` (`crypto/crypto.go`): maps the algorithm string to
an encryptor, `none` for an unknown algorithm. -/
def NewEncryptorStr (s : Bytes) : Option Alg :=
  if s = "aes-gcm".data then some .aesGCM
  else if s = "chacha20".data then some .chacha20
  else none

/-- Dispatch of `Encryptor.Encrypt` over the chosen algorithm. -/
def encryptorEncrypt (gcmSeal chaSeal : Bytes → Bytes → Bytes → Bytes)
    (alg : Alg) (nonce plaintext key : Bytes) : Except CryptoErr Bytes :=
  match alg with
  | .aesGCM => AESGCMEncrypt gcmSeal nonce plaintext key
  | .chacha20 => ChaCha20Encrypt chaSeal nonce plaintext key

/-- Dispatch of `Encryptor.Decrypt` over the chosen algorithm. -/
def encryptorDecrypt (gcmOpen chaOpen : Bytes → Bytes → Bytes → Option Bytes)
    (alg : Alg) (ciphertext key : Bytes) : Except CryptoErr Bytes :=
  match alg with
  | .aesGCM => AESGCMDecrypt gcmOpen ciphertext key
  | .chacha20 => ChaCha20Decrypt chaOpen ciphertext key

/-! ## Single-file symmetric envelope (handleEncrypt / handleDecrypt,
src/unnamed/part_000) -/

/-- Errors of the CLI symmetric envelope path. `corruptFile` is the
`file too small or corrupted` rejection. -/
inductive CliErr
  | unknownAlgorithm
  | corruptFile
  | cryptoFailure (e : CryptoErr)
deriving DecidableEq

/-- The algorithm tag byte written by `handleEncrypt`: 1 for `chacha20`,
0 otherwise. -/
def algoByte (algoStr : Bytes) : Char :=
  if algoStr = "chacha20".data then Char.ofNat 1 else Char.ofNat 0

/-- Embeds the sealing core of `handleEncrypt` (src/unnamed/part_000):
derive the key from the password with a fresh 16-byte salt (the Argon2id
call from `crypto.DeriveKey` is the parameter `argon`, and the random
salt is the explicit `salt` argument), select the algorithm, encrypt, and
lay out `salt ∥ algorithmByte ∥ ciphertext`. -/
def handleEncryptSeal (argon : Bytes → Bytes → Bytes)
    (gcmSeal chaSeal : Bytes → Bytes → Bytes → Bytes)
    (salt nonce password plaintext algoStr : Bytes) : Except CliErr Bytes :=
  let key := argon password salt
  match NewEncryptorStr algoStr with
  | none => .error .unknownAlgorithm
  | some alg =>
    match encryptorEncrypt gcmSeal chaSeal alg nonce plaintext key with
    | .error e => .error (.cryptoFailure e)
    | .ok ciphertext => .ok (salt ++ algoByte algoStr :: ciphertext)

/-- Embeds the opening core of `handleDecrypt` (src/unnamed/part_000):
reject inputs shorter than `SaltSize + 1 = 17` bytes, split the 16-byte
salt and the algorithm byte, re-derive the key with `DeriveKeyWithSalt`
(parameter `argon`; its 16-byte salt-length check always passes here),
and decrypt the remainder. -/
def handleDecryptOpen (argon : Bytes → Bytes → Bytes)
    (gcmOpen chaOpen : Bytes → Bytes → Bytes → Option Bytes)
    (password data : Bytes) : Except CliErr Bytes :=
  if data.length < 17 then .error .corruptFile
  else
    let salt := data.take 16
    let ab := (data.drop 16).headI
    let ciphertext := data.drop 17
    let alg := if ab = Char.ofNat 1 then Alg.chacha20 else Alg.aesGCM
    let key := argon password salt
    match encryptorDecrypt gcmOpen chaOpen alg ciphertext key with
    | .error e => .error (.cryptoFailure e)
    | .ok plaintext => .ok plaintext

/-! ## Env file parser (src/parser/env.go) -/

/-- Embeds `parser.EnvEntry`; zero values follow Go. -/
structure EnvEntry where
  Key : Bytes := []
  Value : Bytes := []
  Encrypted : Bool := false
  Algorithm : Bytes := []
  Comment : Bytes := []
  Raw : Bytes := []
  IsComment : Bool := false
deriving DecidableEq

/-- Character class `[a-zA-Z0-9-]` of `encryptedValuePattern`. -/
def isAlgoChar (c : Char) : Bool := c.isAlpha || c.isDigit || c == '-'

/-- Embeds the regular expression match
`^ENC\[([a-zA-Z0-9-]+):(.+)\]$` (`encryptedValuePattern` in
`parser/env.go`): returns the algorithm id and the base64 payload.
The first group is the maximal run of class characters after `ENC[`; the
payload is everything between the following `:` and the final `]`, must be
nonempty, and (since `.` does not match a newline) may not contain `\n`. -/
def matchEncValue (v : Bytes) : Option (Bytes × Bytes) :=
  if hasPre "ENC[".data v then
    let rest := v.drop 4
    let algo := rest.takeWhile isAlgoChar
    match rest.dropWhile isAlgoChar with
    | c :: tail =>
      if c = ':' then
        match tail.reverse with
        | d :: revBody =>
          if d = ']' then
            if algo = [] ∨ revBody = [] ∨ '\n' ∈ revBody then none
            else some (algo, revBody.reverse)
          else none
        | [] => none
      else none
    | [] => none
  else none

/-- Embeds `parseLine` (`parser/env.go`): comment/blank passthrough, first
`=` split with a trimmed key, `ENC[...]` detection on the value. -/
def parseLine (line : Bytes) : EnvEntry :=
  let trimmed := trimSpace line
  if trimmed = [] || hasPre "#".data trimmed then
    { Raw := line, IsComment := true, Comment := line }
  else
    match splitFirst '=' line with
    | none => { Raw := line, IsComment := true, Comment := line }
    | some (pre, post) =>
      let key := trimSpace pre
      match matchEncValue post with
      | some (algo, payload) =>
        { Key := key, Value := payload, Encrypted := true, Algorithm := algo,
          Raw := line }
      | none =>
        { Key := key, Value := post, Encrypted := false, Raw := line }

/-- One output line of `WriteEnvFile` (`parser/env.go`), before the
appended newline. -/
def renderEntry (e : EnvEntry) : Bytes :=
  if e.IsComment then e.Comment
  else if e.Encrypted then
    e.Key ++ '=' :: "ENC[".data ++ e.Algorithm ++ ':' :: e.Value ++ [']']
  else e.Key ++ '=' :: e.Value

/-- Embeds the output of `WriteEnvFile` (`parser/env.go`): every entry is
rendered and written with a trailing newline. -/
def writeEnvContent (entries : List EnvEntry) : Bytes :=
  (entries.map (fun e => renderEntry e ++ ['\n'])).flatten

/-- Embeds `ParseEnvFile` (`parser/env.go`) on the file's content:
`bufio.Scanner` tokens each parsed by `parseLine`. -/
def parseEnvContent (text : Bytes) : List EnvEntry :=
  (scanLines text).map parseLine

/-- Decidable test for a line whose round trip cannot be disturbed by key
trimming: passthrough lines (blank or `#`-comment after trimming, as
classified by `parseLine`) and `=`-free lines qualify outright, and a
`key=value` line qualifies when its key part carries no surrounding
whitespace. -/
def keyTrimOK (line : Bytes) : Bool :=
  if trimSpace line = [] || hasPre "#".data (trimSpace line) then true
  else
    match splitFirst '=' line with
    | some (pre, _) => trimSpace pre == pre
    | none => true

/-- Errors of `DecryptEnvValues` (`parser/env.go`); each carries the key
named in the Go error message. -/
inductive DecErr
  | unsupportedAlgorithm (algo key : Bytes)
  | badBase64 (key : Bytes)
  | decryptFailed (key : Bytes)
deriving DecidableEq

/-- The env key named by a `DecryptEnvValues` error message. -/
def decErrKey : DecErr → Bytes
  | .unsupportedAlgorithm _ k => k
  | .badBase64 k => k
  | .decryptFailed k => k

/-- The body of the `DecryptEnvValues` loop for one non-skipped entry:
select the encryptor by the entry's stored algorithm, base64-decode the
value (`b64dec` models `base64.StdEncoding.DecodeString`), decrypt, and
replace the value with the plaintext, clearing the flags. -/
def decOne (gcmOpen chaOpen : Bytes → Bytes → Bytes → Option Bytes)
    (b64dec : Bytes → Option Bytes) (key : Bytes) (e : EnvEntry) :
    Except DecErr EnvEntry :=
  match NewEncryptorStr e.Algorithm with
  | none => .error (.unsupportedAlgorithm e.Algorithm e.Key)
  | some alg =>
    match b64dec e.Value with
    | none => .error (.badBase64 e.Key)
    | some ciphertext =>
      match encryptorDecrypt gcmOpen chaOpen alg ciphertext key with
      | .error _ => .error (.decryptFailed e.Key)
      | .ok plaintext =>
        .ok { e with Value := plaintext, Encrypted := false, Algorithm := [] }

/-- Embeds `DecryptEnvValues` (`parser/env.go`). The Go function mutates
the entry slice in place and stops at the first failure; here the
returned list is the slice as left behind: entries decrypted so far,
then, from the failing entry on, the untouched remainder. -/
def decryptEnvValues (gcmOpen chaOpen : Bytes → Bytes → Bytes → Option Bytes)
    (b64dec : Bytes → Option Bytes) (key : Bytes) :
    List EnvEntry → List EnvEntry × Option DecErr
  | [] => ([], none)
  | e :: rest =>
    if e.IsComment || !e.Encrypted then
      let r := decryptEnvValues gcmOpen chaOpen b64dec key rest
      (e :: r.1, r.2)
    else
      match decOne gcmOpen chaOpen b64dec key e with
      | .error err => (e :: rest, some err)
      | .ok e' =>
        let r := decryptEnvValues gcmOpen chaOpen b64dec key rest
        (e' :: r.1, r.2)

/-- Models Go `strings.TrimPrefix(l, pre)`. -/
def goTrimPre (pre l : Bytes) : Bytes :=
  if hasPre pre l then l.drop pre.length else l

/-- Models Go `strings.TrimSuffix(l, suf)`. -/
def goTrimSuf (suf l : Bytes) : Bytes :=
  if hasSuf suf l then l.take (l.length - suf.length) else l

/-! ## Project orchestrator (src/project/project.go)

The filesystem is an explicit association list of paths to file nodes; a
node records its content plus whether reading it and removing it succeed
(modelling I/O failures such as permission errors). `filepath.Glob`,
age encryption/decryption and base64 are abstract parameters collected in
an `Oracle`. Paths are taken relative to the project root, so the
`filepath.Join(p.RootDir, ...)` step is the identity. -/

/-- A file on disk: content plus whether read and remove succeed. -/
structure FNode where
  readable : Bool
  removable : Bool
  content : Bytes
deriving DecidableEq

/-- The filesystem: an association list from paths to nodes. -/
structure FS where
  files : List (Bytes × FNode)
deriving DecidableEq

/-- First node stored under a path, if any. -/
def lookupF : List (Bytes × FNode) → Bytes → Option FNode
  | [], _ => none
  | q :: rest, p => if q.1 = p then some q.2 else lookupF rest p

/-- Replace the first node stored under a path, or append a new entry. -/
def setF : List (Bytes × FNode) → Bytes → FNode → List (Bytes × FNode)
  | [], p, n => [(p, n)]
  | q :: rest, p, n => if q.1 = p then (p, n) :: rest else q :: setF rest p n

/-- Drop the first entry stored under a path. -/
def eraseF : List (Bytes × FNode) → Bytes → List (Bytes × FNode)
  | [], _ => []
  | q :: rest, p => if q.1 = p then rest else q :: eraseF rest p

/-- The paths present in the filesystem. -/
def pathsF (l : List (Bytes × FNode)) : List Bytes := l.map Prod.fst

/-- Models `os.ReadFile`. -/
def fsRead (fs : FS) (p : Bytes) : Option Bytes :=
  match lookupF fs.files p with
  | some n => if n.readable then some n.content else none
  | none => none

/-- Models `os.WriteFile` (assumed to succeed; the new file is readable
and removable). -/
def fsWrite (fs : FS) (p : Bytes) (c : Bytes) : FS :=
  ⟨setF fs.files p ⟨true, true, c⟩⟩

/-- Models `os.Remove`: fails on a missing or unremovable file. -/
def fsRemove (fs : FS) (p : Bytes) : Option FS :=
  match lookupF fs.files p with
  | some n => if n.removable then some ⟨eraseF fs.files p⟩ else none
  | none => none

/-- Filesystem well-formedness used by the idempotence argument: paths are
unique and every file may be removed. -/
def goodFS (fs : FS) : Prop :=
  (pathsF fs.files).Nodup ∧ ∀ q ∈ fs.files, q.2.removable = true

/-- External collaborators of the orchestrator: glob pattern matching
(`badPat` marks patterns on which `filepath.Glob` errors, `patMatch` is
pattern-vs-path matching), age encryption and decryption, and base64. -/
structure Oracle where
  badPat : Bytes → Bool
  patMatch : Bytes → Bytes → Bool
  ageEncrypt : List Bytes → Bytes → Option Bytes
  ageDecrypt : Bytes → Bytes → Option Bytes
  b64encode : Bytes → Bytes
  b64decode : Bytes → Option Bytes

/-- Embeds `project.Recipient`. -/
structure Recipient where
  name : Bytes
  key : Bytes
deriving DecidableEq

/-- Embeds `project.Config`. -/
structure Config where
  version : Nat
  backend : Bytes
  recipients : List Recipient
  secrets : List Bytes
deriving DecidableEq

/-- Errors surfaced by the orchestrator. -/
inductive Err
  | noRecipients
  | noIdentity
  | encryptFile (path : Bytes)
  | decryptFile (path : Bytes)
deriving DecidableEq

/-- `EncryptedExt = ".podx"`. -/
def podxExt : Bytes := ".podx".data

/-- `strings.HasSuffix(path, EncryptedExt)`. -/
def endsWithPodx (p : Bytes) : Bool := hasSuf podxExt p

/-- Models `filepath.Base` for the slash-terminated-free paths the
orchestrator produces: the component after the last `/`. -/
def baseName (p : Bytes) : Bytes := (p.reverse.takeWhile (fun c => c ≠ '/')).reverse

/-- The env-file classification of `EncryptAll`/`DecryptAll`: basename
starts or ends with `.env`. -/
def isEnvName (b : Bytes) : Bool := hasPre ".env".data b || hasSuf ".env".data b

/-- Models `filepath.Glob` over the filesystem: an error (`none`) on a bad
pattern, otherwise the existing paths matching the pattern. -/
def glob (O : Oracle) (fs : FS) (pat : Bytes) : Option (List Bytes) :=
  if O.badPat pat then none
  else some ((pathsF fs.files).filter (fun p => O.patMatch pat p))

/-- Option-valued traversal of a list, stopping at the first failure. -/
def mapMOpt (f : α → Option β) : List α → Option (List β)
  | [] => some []
  | a :: as =>
    match f a with
    | none => none
    | some b =>
      match mapMOpt f as with
      | none => none
      | some bs => some (b :: bs)

/-- One line of `encryptEnvFile` (`project/project.go`): comments, blanks,
`=`-free lines and already-`ENC[`-prefixed values pass through; any other
value is age-encrypted for all recipients and rewritten as
`key=ENC[age:<base64>]` (the key is not trimmed here). -/
def encEnvLine (O : Oracle) (recipientKeys : List Bytes) (line : Bytes) :
    Option Bytes :=
  let trimmed := trimSpace line
  if trimmed = [] || hasPre "#".data trimmed then some line
  else
    match splitFirst '=' line with
    | none => some line
    | some (key, value) =>
      if hasPre "ENC[".data value then some line
      else
        match O.ageEncrypt recipientKeys value with
        | none => none
        | some ciphertext =>
          some (key ++ '=' :: "ENC[age:".data ++ O.b64encode ciphertext ++ [']'])

/-- The content transformation of `encryptEnvFile`: split on `\n`, encrypt
each line, and re-join with `\n`. -/
def encryptEnvContent (O : Oracle) (recipientKeys : List Bytes)
    (content : Bytes) : Option Bytes :=
  (mapMOpt (encEnvLine O recipientKeys) (goSplit '\n' content)).map (goJoin '\n')

/-- Processing of one non-`.podx` match inside `EncryptAll`: read, apply
the env-shaped or regular transformation (`encryptEnvFile` /
`encryptRegularFile`), write `match + ".podx"`, then try to delete the
original — a deletion failure is only logged, so the written state is kept
either way. `none` is any failure that aborts the batch. -/
def encStep (O : Oracle) (recipientKeys : List Bytes) (fs : FS) (m : Bytes) :
    Option FS :=
  match fsRead fs m with
  | none => none
  | some content =>
    let transformed :=
      if isEnvName (baseName m) then encryptEnvContent O recipientKeys content
      else O.ageEncrypt recipientKeys content
    match transformed with
    | none => none
    | some out =>
      let fs2 := fsWrite fs (m ++ podxExt) out
      match fsRemove fs2 m with
      | some fs3 => some fs3
      | none => some fs2

/-- The inner match loop of `EncryptAll`: skip `.podx` matches, abort with
the running count on the first failing file, count each processed file. -/
def encMatches (O : Oracle) (recipientKeys : List Bytes) :
    FS → Nat → List Bytes → FS × Nat × Option Err
  | fs, count, [] => (fs, count, none)
  | fs, count, m :: ms =>
    if endsWithPodx m then encMatches O recipientKeys fs count ms
    else
      match encStep O recipientKeys fs m with
      | none => (fs, count, some (.encryptFile m))
      | some fs' => encMatches O recipientKeys fs' (count + 1) ms

/-- The pattern loop of `EncryptAll`: a glob error skips the pattern; a
failing match loop returns immediately with its partial count. -/
def encPatterns (O : Oracle) (recipientKeys : List Bytes) :
    FS → Nat → List Bytes → FS × Nat × Option Err
  | fs, count, [] => (fs, count, none)
  | fs, count, p :: ps =>
    match glob O fs p with
    | none => encPatterns O recipientKeys fs count ps
    | some ms =>
      match encMatches O recipientKeys fs count ms with
      | (fs', count', none) => encPatterns O recipientKeys fs' count' ps
      | (fs', count', some e) => (fs', count', some e)

/-- Embeds `EncryptAll` (`project/project.go`, current version): fail fast
without recipients, else run the pattern loop over the recipients' keys. -/
def encryptAll (O : Oracle) (cfg : Config) (fs : FS) : FS × Nat × Option Err :=
  if cfg.recipients.length = 0 then (fs, 0, some .noRecipients)
  else encPatterns O (cfg.recipients.map Recipient.key) fs 0 cfg.secrets

/-- One line of `decryptEnvFile` (`project/project.go`): values of the
form `ENC[age:<base64>]` are base64-decoded and age-decrypted with the
identity; anything else passes through. -/
def decEnvLine (O : Oracle) (identity : Bytes) (line : Bytes) :
    Option Bytes :=
  let trimmed := trimSpace line
  if trimmed = [] || hasPre "#".data trimmed then some line
  else
    match splitFirst '=' line with
    | none => some line
    | some (key, value) =>
      if hasPre "ENC[age:".data value && hasSuf "]".data value then
        let encData := goTrimSuf "]".data (goTrimPre "ENC[age:".data value)
        match O.b64decode encData with
        | none => none
        | some ciphertext =>
          match O.ageDecrypt identity ciphertext with
          | none => none
          | some plaintext => some (key ++ '=' :: plaintext)
      else some line

/-- The content transformation of `decryptEnvFile`. -/
def decryptEnvContent (O : Oracle) (identity : Bytes) (content : Bytes) :
    Option Bytes :=
  (mapMOpt (decEnvLine O identity) (goSplit '\n' content)).map (goJoin '\n')

/-- Processing of one match inside `DecryptAll`: read the ciphertext,
apply the env-shaped or regular decryption, and write the plaintext
sibling (the `.podx` file is kept). -/
def decStep (O : Oracle) (identity : Bytes) (fs : FS) (m : Bytes) :
    Option FS :=
  match fsRead fs m with
  | none => none
  | some ciphertext =>
    let decPath := goTrimSuf podxExt m
    let transformed :=
      if isEnvName (baseName decPath) then decryptEnvContent O identity ciphertext
      else O.ageDecrypt identity ciphertext
    match transformed with
    | none => none
    | some plaintext => some (fsWrite fs decPath plaintext)

/-- The inner match loop of `DecryptAll`. -/
def decMatches (O : Oracle) (identity : Bytes) :
    FS → Nat → List Bytes → FS × Nat × Option Err
  | fs, count, [] => (fs, count, none)
  | fs, count, m :: ms =>
    match decStep O identity fs m with
    | none => (fs, count, some (.decryptFile (goTrimSuf podxExt m)))
    | some fs' => decMatches O identity fs' (count + 1) ms

/-- The pattern loop of `DecryptAll`: globs `pattern + ".podx"`. -/
def decPatterns (O : Oracle) (identity : Bytes) :
    FS → Nat → List Bytes → FS × Nat × Option Err
  | fs, count, [] => (fs, count, none)
  | fs, count, p :: ps =>
    match glob O fs (p ++ podxExt) with
    | none => decPatterns O identity fs count ps
    | some ms =>
      match decMatches O identity fs count ms with
      | (fs', count', none) => decPatterns O identity fs' count' ps
      | (fs', count', some e) => (fs', count', some e)

/-- Embeds `DecryptAll` (`project/project.go`, current version):
`identity` is the result of `keygen.LoadAgeIdentity` (`none` when no
identity exists). -/
def decryptAll (O : Oracle) (identity : Option Bytes) (cfg : Config)
    (fs : FS) : FS × Nat × Option Err :=
  match identity with
  | none => (fs, 0, some .noIdentity)
  | some idt => decPatterns O idt fs 0 cfg.secrets

/-- Errors of `AddRecipient`. -/
inductive AddErr
  | invalidKey
  | duplicateRecipient
deriving DecidableEq

/-- Embeds `AddRecipient` (`project/project.go`) on the in-memory config:
reject keys without the `age1` prefix, then reject duplicates, else
append. (The subsequent `Save()` persistence step is outside the model.) -/
def addRecipient (cfg : Config) (name key : Bytes) : Config × Option AddErr :=
  if !hasPre "age1".data key then (cfg, some .invalidKey)
  else if cfg.recipients.any (fun r => r.key = key) then
    (cfg, some .duplicateRecipient)
  else
    ({ cfg with recipients := cfg.recipients ++ [⟨name, key⟩] }, none)

/-- Property of a filesystem in which every file matching a pattern
already carries the ciphertext extension. -/
def cleanFor (O : Oracle) (p : Bytes) (fs : FS) : Prop :=
  ∀ q ∈ fs.files, O.patMatch p q.1 = true → endsWithPodx q.1 = true

/-! ## Concrete instances used by witnesses and counterexamples -/

/-- A KDF instance: every derived key is 32 bytes. -/
def toyArgon : Bytes → Bytes → Bytes := fun _ _ => List.replicate 32 'k'

/-- An AEAD sealing core instance. -/
def toySeal : Bytes → Bytes → Bytes → Bytes := fun _ _ p => p

/-- The matching AEAD opening core instance. -/
def toyOpen : Bytes → Bytes → Bytes → Option Bytes := fun _ _ c => some c

/-- An orchestrator environment: exact-match globbing, identity age
encryption and base64. -/
def oracleId : Oracle :=
  { badPat := fun _ => false
    patMatch := fun p q => p == q
    ageEncrypt := fun _ c => some c
    ageDecrypt := fun _ c => some c
    b64encode := fun c => c
    b64decode := fun c => some c }

/-- A project with one recipient and one secret pattern. -/
def cfgOwner : Config :=
  { version := 1, backend := "age".data
    recipients := [⟨"Owner".data, "age1k".data⟩]
    secrets := ["a".data] }

/-- A project with no recipients. -/
def cfgNoRecipients : Config :=
  { version := 1, backend := "age".data, recipients := [], secrets := ["a".data] }

/-- A project whose single recipient has a key without the age1 prefix
(such a state is reachable by hand-editing the loaded config file). -/
def cfgBob : Config :=
  { version := 1, backend := "age".data
    recipients := [⟨"A".data, "bob".data⟩], secrets := [] }

/-- One readable, removable plaintext file `a`. -/
def fsPlain : FS := ⟨[("a".data, ⟨true, true, "v".data⟩)]⟩

/-- The result of encrypting `fsPlain`: only the ciphertext file. -/
def fsEncd : FS := ⟨[("a.podx".data, ⟨true, true, "v".data⟩)]⟩

/-- One unreadable plaintext file `a` (for example a permission error). -/
def fsUnreadable : FS := ⟨[("a".data, ⟨false, true, "v".data⟩)]⟩

/-- One readable but unremovable plaintext file `a`. -/
def fsLocked : FS := ⟨[("a".data, ⟨true, false, "v".data⟩)]⟩

/-- One unreadable ciphertext file `a.podx`. -/
def fsEncUnreadable : FS := ⟨[("a.podx".data, ⟨false, true, "v".data⟩)]⟩

/-- An orchestrator environment in which patterns beginning with `bad`
make `filepath.Glob` error. -/
def oracleBadPre : Oracle :=
  { badPat := fun pat => hasPre "bad".data pat
    patMatch := fun p q => p == q
    ageEncrypt := fun _ c => some c
    ageDecrypt := fun _ c => some c
    b64encode := fun c => c
    b64decode := fun c => some c }

/-- A 32-byte key. -/
def toyKey : Bytes := List.replicate 32 'k'

/-- A passthrough comment entry. -/
def envCmt : EnvEntry := { Comment := "# c".data, Raw := "# c".data, IsComment := true }

/-- An encrypted entry whose stored algorithm id is unknown. -/
def envBadAlgo : EnvEntry :=
  { Key := "K".data, Value := "x".data, Encrypted := true, Algorithm := "foo".data,
    Raw := "K=ENC[foo:x]".data }

/-- A plaintext entry. -/
def envPlain : EnvEntry := { Key := "D".data, Value := "true".data, Raw := "D=true".data }

/-! ## Helper lemmas and claim theorems -/

theorem hasPre_append (pre rest : Bytes) : hasPre pre (pre ++ rest) = true := by
  induction pre with
  | nil => rfl
  | cons a as ih => simp [hasPre, ih]

theorem hasPre_some (pre l : Bytes) (h : hasPre pre l = true) :
    ∃ rest, l = pre ++ rest := by
  induction pre generalizing l with
  | nil => exact ⟨l, rfl⟩
  | cons a as ih =>
    cases l with
    | nil => simp [hasPre] at h
    | cons b bs =>
      simp only [hasPre, Bool.and_eq_true, beq_iff_eq] at h
      obtain ⟨rest, hr⟩ := ih bs h.2
      exact ⟨rest, by simp [h.1, hr]⟩

theorem hasSuf_append (s m : Bytes) : hasSuf s (m ++ s) = true := by
  simp [hasSuf, List.reverse_append, hasPre_append]

theorem ne_append_of_not_hasSuf (s m x : Bytes) (h : hasSuf s m = false) :
    m ≠ x ++ s := by
  intro he
  rw [he, hasSuf_append] at h
  exact absurd h (by simp)

theorem splitFirst_some (c : Char) (l pre post : Bytes)
    (h : splitFirst c l = some (pre, post)) : l = pre ++ c :: post := by
  induction l generalizing pre post with
  | nil => simp [splitFirst] at h
  | cons x xs ih =>
    by_cases hx : x = c
    · simp [splitFirst, hx] at h
      simp [hx, h.1, h.2]
    · simp only [splitFirst, if_neg hx] at h
      cases hs : splitFirst c xs with
      | none => rw [hs] at h; exact absurd h (by simp)
      | some pr =>
        obtain ⟨p1, p2⟩ := pr
        rw [hs] at h
        simp at h
        rw [← h.1, ← h.2]
        simp [ih p1 p2 hs]

theorem splitFirst_not_mem (c : Char) (l : Bytes) (h : c ∉ l) :
    splitFirst c l = none := by
  induction l with
  | nil => rfl
  | cons x xs ih =>
    simp only [List.mem_cons, not_or] at h
    simp [splitFirst, Ne.symm h.1, ih h.2]

theorem splitFirst_append_cons (c : Char) (l rest : Bytes) (h : c ∉ l) :
    splitFirst c (l ++ c :: rest) = some (l, rest) := by
  induction l with
  | nil => simp [splitFirst]
  | cons x xs ih =>
    simp only [List.mem_cons, not_or] at h
    simp [splitFirst, Ne.symm h.1, ih h.2]

theorem scanLinesGo_line (l : Bytes) (cur rest : Bytes) (h : '\n' ∉ l) :
    scanLinesGo cur (l ++ '\n' :: rest) =
      dropCR (cur.reverse ++ l) :: scanLinesGo [] rest := by
  induction l generalizing cur with
  | nil => simp [scanLinesGo]
  | cons x xs ih =>
    simp only [List.mem_cons, not_or] at h
    have hx : ¬x = '\n' := fun hh => h.1 hh.symm
    simp only [List.cons_append, scanLinesGo, if_neg hx, List.append_eq]
    rw [ih (x :: cur) h.2]
    simp

theorem scanLines_joinNL (ls : List Bytes)
    (h : ∀ l ∈ ls, '\n' ∉ l ∧ dropCR l = l) :
    scanLines (joinNL ls) = ls := by
  induction ls with
  | nil => rfl
  | cons l rest ih =>
    have hl := h l (by simp)
    have hjoin : joinNL (l :: rest) = l ++ '\n' :: joinNL rest := by
      simp [joinNL]
    show scanLinesGo [] (joinNL (l :: rest)) = l :: rest
    rw [hjoin, scanLinesGo_line l [] (joinNL rest) hl.1]
    simp only [List.reverse_nil, List.nil_append]
    rw [hl.2]
    exact congrArg (l :: ·) (ih (fun x hx => h x (by simp [hx])))

theorem matchEncValue_some (v algo payload : Bytes)
    (h : matchEncValue v = some (algo, payload)) :
    v = "ENC[".data ++ algo ++ ':' :: payload ++ [']'] := by
  by_cases hpre : hasPre "ENC[".data v
  · obtain ⟨rest, hv⟩ := hasPre_some "ENC[".data v hpre
    have hdrop : v.drop 4 = rest := by
      rw [hv]
      have : ("ENC[".data).length = 4 := by decide
      simp [this, List.drop_left "ENC[".data rest]
    simp only [matchEncValue, if_pos hpre, hdrop] at h
    cases hd : rest.dropWhile isAlgoChar with
    | nil => rw [hd] at h; exact absurd h (by simp)
    | cons c tail =>
      rw [hd] at h
      simp only at h
      by_cases hc : c = ':'
      case neg => rw [if_neg hc] at h; exact absurd h (by simp)
      case pos =>
        subst hc
        rw [if_pos rfl] at h
        cases hr : tail.reverse with
        | nil => rw [hr] at h; exact absurd h (by simp)
        | cons d revBody =>
          rw [hr] at h
          simp only at h
          by_cases hdc : d = ']'
          · subst hdc
            rw [if_pos rfl] at h
            split at h
            · exact absurd h (by simp)
            · simp only [Option.some.injEq, Prod.mk.injEq] at h
              have htail : tail = payload ++ [']'] := by
                have h2 : tail.reverse.reverse = (']' :: revBody).reverse := by rw [hr]
                rw [List.reverse_reverse] at h2
                simp [h2, h.2]
              have hrest : rest = algo ++ ':' :: tail := by
                rw [← h.1, ← hd]
                exact (List.takeWhile_append_dropWhile isAlgoChar rest).symm
              simp [hv, hrest, htail]
          · rw [if_neg hdc] at h
            exact absurd h (by simp)
  · simp [matchEncValue, hpre] at h

theorem renderEntry_parseLine (line : Bytes) (hk : keyTrimOK line = true) :
    renderEntry (parseLine line) = line := by
  unfold parseLine
  by_cases hc : (trimSpace line = [] || hasPre "#".data (trimSpace line)) = true
  · simp [hc, renderEntry]
  · rw [Bool.not_eq_true] at hc
    simp only [hc]
    cases hs : splitFirst '=' line with
    | none => simp [renderEntry]
    | some pr =>
      obtain ⟨pre, post⟩ := pr
      have hline := splitFirst_some '=' line pre post hs
      have hpre : trimSpace pre = pre := by
        unfold keyTrimOK at hk
        rw [hc] at hk
        simp only [Bool.false_eq_true, if_false, hs] at hk
        simpa using hk
      simp only
      cases hm : matchEncValue post with
      | some ap =>
        obtain ⟨algo, payload⟩ := ap
        have hpost := matchEncValue_some post algo payload hm
        simp [renderEntry, hpre, hline, hpost]
      | none => simp [renderEntry, hpre, hline]

theorem decOne_error_names_key (gcmOpen chaOpen : Bytes → Bytes → Bytes → Option Bytes)
    (b64dec : Bytes → Option Bytes) (key : Bytes) (e : EnvEntry) (err : DecErr)
    (h : decOne gcmOpen chaOpen b64dec key e = .error err) :
    decErrKey err = e.Key := by
  unfold decOne at h
  cases hn : NewEncryptorStr e.Algorithm with
  | none => rw [hn] at h; simp at h; simp [← h, decErrKey]
  | some alg =>
    rw [hn] at h
    simp only at h
    cases hb : b64dec e.Value with
    | none => rw [hb] at h; simp at h; simp [← h, decErrKey]
    | some ct =>
      rw [hb] at h
      simp only at h
      cases hd : encryptorDecrypt gcmOpen chaOpen alg ct key with
      | error ce => rw [hd] at h; simp at h; simp [← h, decErrKey]
      | ok pt => rw [hd] at h; simp at h

theorem self_ne_append (m s : Bytes) (h : s ≠ []) : m ≠ m ++ s := by
  intro he
  have hl := congrArg List.length he
  simp only [List.length_append] at hl
  exact h (List.length_eq_zero.mp (by omega))

theorem lookupF_setF_self (l : List (Bytes × FNode)) (p : Bytes) (n : FNode) :
    lookupF (setF l p n) p = some n := by
  induction l with
  | nil => simp [setF, lookupF]
  | cons q rest ih =>
    by_cases hq : q.1 = p
    · simp [setF, hq, lookupF]
    · simp [setF, hq, lookupF, ih]

theorem lookupF_setF_ne (l : List (Bytes × FNode)) (p p2 : Bytes) (n : FNode)
    (h : p ≠ p2) : lookupF (setF l p2 n) p = lookupF l p := by
  induction l with
  | nil => simp [setF, lookupF, Ne.symm h]
  | cons q rest ih =>
    by_cases hq : q.1 = p2
    · simp [setF, hq, lookupF, Ne.symm h, hq.symm ▸ hq]
    · simp [setF, hq, lookupF, ih]

/-- C4: `EncryptAll` called on a project whose recipients list is empty
returns count 0 and the no-recipients error, with the filesystem value
unchanged — no file is read, written, or deleted. -/
theorem C4_no_recipients_fail_fast (O : Oracle) (cfg : Config) (fs : FS)
    (h : cfg.recipients = []) :
    encryptAll O cfg fs = (fs, 0, some Err.noRecipients) := by
  simp [encryptAll, h]

/-- Witness for C4 at a concrete project and filesystem. -/
theorem C4_no_recipients_fail_fast_witness :
    cfgNoRecipients.recipients = [] ∧
    encryptAll oracleId cfgNoRecipients fsPlain = (fsPlain, 0, some Err.noRecipients) :=
  ⟨rfl, C4_no_recipients_fail_fast oracleId cfgNoRecipients fsPlain rfl⟩

/-- C5: every envelope shorter than the 17-byte minimum header
(16-byte salt plus 1-byte algorithm tag) is rejected as corrupt by the
symmetric open path. The statement holds uniformly in the KDF parameter
`argon`, so the rejection neither invokes nor depends on any Argon2id
work. -/
theorem C5_short_envelope_rejected (argon : Bytes → Bytes → Bytes)
    (gcmOpen chaOpen : Bytes → Bytes → Bytes → Option Bytes)
    (password data : Bytes) (h : data.length < 17) :
    handleDecryptOpen argon gcmOpen chaOpen password data =
      .error .corruptFile := by
  simp [handleDecryptOpen, h]

/-- Witness for C5 on a 16-byte input. -/
theorem C5_short_envelope_rejected_witness :
    ("0123456789abcdef".data).length < 17 ∧
    handleDecryptOpen toyArgon toyOpen toyOpen "pw".data "0123456789abcdef".data =
      .error .corruptFile :=
  ⟨by decide, C5_short_envelope_rejected toyArgon toyOpen toyOpen "pw".data
    "0123456789abcdef".data (by decide)⟩

/-- C8: for both algorithms, `Encrypt` and `Decrypt` return the
invalid-key-size error whenever the key is not exactly 32 bytes, and no
ciphertext or plaintext is produced (the error constructor carries
none). -/
theorem C8_key_size_contract (gcmSeal chaSeal : Bytes → Bytes → Bytes → Bytes)
    (gcmOpen chaOpen : Bytes → Bytes → Bytes → Option Bytes)
    (nonce plaintext ciphertext key : Bytes) (h : key.length ≠ 32) :
    AESGCMEncrypt gcmSeal nonce plaintext key = .error .invalidKeySize ∧
    AESGCMDecrypt gcmOpen ciphertext key = .error .invalidKeySize ∧
    ChaCha20Encrypt chaSeal nonce plaintext key = .error .invalidKeySize ∧
    ChaCha20Decrypt chaOpen ciphertext key = .error .invalidKeySize :=
  ⟨by simp [AESGCMEncrypt, h], by simp [AESGCMDecrypt, h],
   by simp [ChaCha20Encrypt, h], by simp [ChaCha20Decrypt, h]⟩

/-- Witness for C8 on a 5-byte key. -/
theorem C8_key_size_contract_witness :
    ("short".data).length ≠ 32 ∧
    (AESGCMEncrypt toySeal [] "p".data "short".data = .error .invalidKeySize ∧
     AESGCMDecrypt toyOpen "c".data "short".data = .error .invalidKeySize ∧
     ChaCha20Encrypt toySeal [] "p".data "short".data = .error .invalidKeySize ∧
     ChaCha20Decrypt toyOpen "c".data "short".data = .error .invalidKeySize) :=
  ⟨by decide, C8_key_size_contract toySeal toySeal toyOpen toyOpen [] "p".data
    "c".data "short".data (by decide)⟩

/-- C10: if, after a match's ciphertext file has been written, deleting
the original plaintext fails, the failure is non-fatal: the match loop
continues on the written state with the count incremented, and both the
plaintext and the ciphertext remain on disk. -/
theorem C10_delete_failure_nonfatal (O : Oracle) (keys : List Bytes) (fs : FS)
    (count : Nat) (m : Bytes) (ms : List Bytes) (content out : Bytes)
    (hnp : endsWithPodx m = false)
    (hr : fsRead fs m = some content)
    (ht : (if isEnvName (baseName m) then encryptEnvContent O keys content
           else O.ageEncrypt keys content) = some out)
    (hrm : fsRemove (fsWrite fs (m ++ podxExt) out) m = none) :
    encMatches O keys fs count (m :: ms) =
      encMatches O keys (fsWrite fs (m ++ podxExt) out) (count + 1) ms ∧
    fsRead (fsWrite fs (m ++ podxExt) out) m = some content ∧
    fsRead (fsWrite fs (m ++ podxExt) out) (m ++ podxExt) = some out := by
  have hne : m ≠ m ++ podxExt := self_ne_append m podxExt (by decide)
  have hstep : encStep O keys fs m = some (fsWrite fs (m ++ podxExt) out) := by
    unfold encStep
    rw [hr]
    simp only
    rw [ht]
    simp only
    rw [hrm]
  refine ⟨?_, ?_, ?_⟩
  · simp only [encMatches, hnp, Bool.false_eq_true, if_false, hstep]
  · show fsRead (fsWrite fs (m ++ podxExt) out) m = some content
    unfold fsRead fsWrite at *
    rw [lookupF_setF_ne fs.files m (m ++ podxExt) ⟨true, true, out⟩ hne]
    exact hr
  · unfold fsRead fsWrite
    rw [lookupF_setF_self]
    rfl

/-- Witness for C10: an unremovable plaintext file is still counted and
both files remain. -/
theorem C10_delete_failure_nonfatal_witness :
    encMatches oracleId ["age1k".data] fsLocked 0 ["a".data] =
      encMatches oracleId ["age1k".data]
        (fsWrite fsLocked ("a".data ++ podxExt) "v".data) 1 [] ∧
    fsRead (fsWrite fsLocked ("a".data ++ podxExt) "v".data) "a".data =
      some "v".data ∧
    fsRead (fsWrite fsLocked ("a".data ++ podxExt) "v".data)
      ("a".data ++ podxExt) = some "v".data :=
  C10_delete_failure_nonfatal oracleId ["age1k".data] fsLocked 0 "a".data []
    "v".data "v".data (by decide) (by decide) (by decide) (by decide)

/-- C3 (amended): the first failure while processing a matched file —
reading, transforming, or decrypting it — aborts the whole batch
immediately: the match loop returns the accumulated success count and the
error with the state as of the failure, the pattern loop propagates that
result without touching later patterns, and only glob errors on a
pattern are skipped. This holds for both the encrypt-all and the
decrypt-all loops. -/
theorem C3_batch_abort_partial_count (O : Oracle) (keys : List Bytes)
    (identity : Bytes) (fsE fsD fsP fsQ fs2 fs3 : FS)
    (cE cD cP cQ c2 c3 : Nat) (m md p q pE pD : Bytes)
    (ms msd msp msq ps qs psE psD : List Bytes) (e e2 : Err)
    (h1 : endsWithPodx m = false) (h2 : encStep O keys fsE m = none)
    (h3 : decStep O identity fsD md = none)
    (h4 : glob O fsP p = some msp)
    (h5 : encMatches O keys fsP cP msp = (fs2, c2, some e))
    (h6 : glob O fsQ (q ++ podxExt) = some msq)
    (h7 : decMatches O identity fsQ cQ msq = (fs3, c3, some e2))
    (h8 : O.badPat pE = true) (h9 : O.badPat (pD ++ podxExt) = true) :
    encMatches O keys fsE cE (m :: ms) =
      (fsE, cE, some (Err.encryptFile m)) ∧
    decMatches O identity fsD cD (md :: msd) =
      (fsD, cD, some (Err.decryptFile (goTrimSuf podxExt md))) ∧
    encPatterns O keys fsP cP (p :: ps) = (fs2, c2, some e) ∧
    decPatterns O identity fsQ cQ (q :: qs) = (fs3, c3, some e2) ∧
    encPatterns O keys fsE cE (pE :: psE) = encPatterns O keys fsE cE psE ∧
    decPatterns O identity fsD cD (pD :: psD) =
      decPatterns O identity fsD cD psD := by
  refine ⟨?_, ?_, ?_, ?_, ?_, ?_⟩
  · simp only [encMatches, h1, Bool.false_eq_true, if_false, h2]
  · simp only [decMatches, h3]
  · simp only [encPatterns, h4, h5]
  · simp only [decPatterns, h6, h7]
  · simp only [encPatterns, glob, h8, if_true]
  · simp only [decPatterns, glob, h9, if_true]

/-- Witness for C3 (amended) over concrete failing files, patterns and
glob errors. -/
theorem C3_batch_abort_partial_count_witness :
    encMatches oracleBadPre ["age1k".data] fsUnreadable 4 ["a".data] =
      (fsUnreadable, 4, some (Err.encryptFile "a".data)) ∧
    decMatches oracleBadPre "idt".data fsEncUnreadable 5 ["a.podx".data] =
      (fsEncUnreadable, 5,
        some (Err.decryptFile (goTrimSuf podxExt "a.podx".data))) ∧
    encPatterns oracleBadPre ["age1k".data] fsUnreadable 0
      ["a".data, "z".data] =
      (fsUnreadable, 0, some (Err.encryptFile "a".data)) ∧
    decPatterns oracleBadPre "idt".data fsEncUnreadable 0
      ["a".data, "z".data] =
      (fsEncUnreadable, 0, some (Err.decryptFile "a".data)) ∧
    encPatterns oracleBadPre ["age1k".data] fsUnreadable 4 ["bad".data] =
      encPatterns oracleBadPre ["age1k".data] fsUnreadable 4 [] ∧
    decPatterns oracleBadPre "idt".data fsEncUnreadable 5 ["bad2".data] =
      decPatterns oracleBadPre "idt".data fsEncUnreadable 5 [] :=
  C3_batch_abort_partial_count oracleBadPre ["age1k".data] "idt".data
    fsUnreadable fsEncUnreadable fsUnreadable fsEncUnreadable
    fsUnreadable fsEncUnreadable 4 5 0 0 0 0
    "a".data "a.podx".data "a".data "a".data "bad".data "bad2".data
    [] [] ["a".data] ["a.podx".data] ["z".data] ["z".data] [] []
    (Err.encryptFile "a".data) (Err.decryptFile "a".data)
    (by decide) (by decide) (by decide) (by decide) (by decide) (by decide)
    (by decide) (by decide) (by decide)

/-- C3 counterexample: the claim says a read error on a single matched
file is only logged and skipped, so this one-file batch would have to
return `(fs, 0, none)`. Instead a read failure on the match `a` is
surfaced as an encryption failure and aborts `EncryptAll` with an
error. -/
theorem C3_counterexample :
    encryptAll oracleId cfgOwner fsUnreadable =
      (fsUnreadable, 0, some (Err.encryptFile "a".data)) := by decide

/-- C7 counterexample: in a duplicate-free project whose existing
recipient key lacks the `age1` prefix (reachable via a hand-edited
config), adding that same key again is rejected as an invalid key, not
with the duplicate error the claim promises (the list is still left
unchanged). -/
theorem C7_counterexample :
    (∃ r ∈ cfgBob.recipients, r.key = "bob".data) ∧
    addRecipient cfgBob "B".data "bob".data = (cfgBob, some AddErr.invalidKey) ∧
    AddErr.invalidKey ≠ AddErr.duplicateRecipient :=
  ⟨⟨⟨"A".data, "bob".data⟩, by decide, rfl⟩, by decide, by decide⟩

/-- C7 (amended): `AddRecipient` preserves recipient-key uniqueness;
adding a key equal to an existing recipient's key returns an error and
leaves the config unchanged — the duplicate error when the key carries
the `age1` prefix, the invalid-key error otherwise — and a successful
add only appends. -/
theorem C7_addRecipient_uniqueness (cfg : Config) (name key : Bytes)
    (hinv : (cfg.recipients.map Recipient.key).Nodup) :
    ((addRecipient cfg name key).1.recipients.map Recipient.key).Nodup ∧
    ((∃ r ∈ cfg.recipients, r.key = key) →
      (addRecipient cfg name key).1 = cfg ∧
      (addRecipient cfg name key).2 ≠ none) ∧
    ((∃ r ∈ cfg.recipients, r.key = key) → hasPre "age1".data key = true →
      addRecipient cfg name key = (cfg, some AddErr.duplicateRecipient)) ∧
    ((addRecipient cfg name key).2 = none →
      (addRecipient cfg name key).1.recipients =
        cfg.recipients ++ [⟨name, key⟩]) := by
  by_cases hpre : hasPre "age1".data key
  · by_cases hdup : cfg.recipients.any (fun r => r.key = key)
    · have hres : addRecipient cfg name key =
          (cfg, some AddErr.duplicateRecipient) := by
        unfold addRecipient
        simp [hpre, hdup]
      rw [hres]
      exact ⟨hinv, fun _ => ⟨rfl, by simp⟩, fun _ _ => rfl, by simp⟩
    · have hres : addRecipient cfg name key =
          ({ cfg with recipients := cfg.recipients ++ [⟨name, key⟩] }, none) := by
        unfold addRecipient
        simp only [hpre, Bool.not_true, Bool.false_eq_true, if_false]
        simp [hdup]
      have hnot : ∀ r ∈ cfg.recipients, r.key ≠ key := by
        intro r hr hk
        exact hdup (List.any_eq_true.mpr ⟨r, hr, by simp [hk]⟩)
      rw [hres]
      refine ⟨?_, ?_, ?_, ?_⟩
      · simp only [List.map_append, List.map_cons, List.map_nil]
        rw [List.nodup_append]
        refine ⟨hinv, by simp, ?_⟩
        intro k hk
        simp only [List.mem_map] at hk
        obtain ⟨r, hr, hrk⟩ := hk
        simp only [List.mem_singleton]
        intro hkk
        exact hnot r hr (by rw [hrk, hkk])
      · intro he
        obtain ⟨r, hr, hk⟩ := he
        exact absurd hk (hnot r hr)
      · intro he _
        obtain ⟨r, hr, hk⟩ := he
        exact absurd hk (hnot r hr)
      · intro
        rfl
  · have hres : addRecipient cfg name key = (cfg, some AddErr.invalidKey) := by
      unfold addRecipient
      simp [hpre]
    rw [hres]
    exact ⟨hinv, fun _ => ⟨rfl, by simp⟩, fun _ hp => absurd hp hpre, by simp⟩

/-- Witness for C7 (amended) on a project with one `age1`-prefixed
recipient, re-adding the same key. -/
theorem C7_addRecipient_uniqueness_witness :
    ((addRecipient cfgOwner "B".data "age1k".data).1.recipients.map
      Recipient.key).Nodup ∧
    ((∃ r ∈ cfgOwner.recipients, r.key = "age1k".data) →
      (addRecipient cfgOwner "B".data "age1k".data).1 = cfgOwner ∧
      (addRecipient cfgOwner "B".data "age1k".data).2 ≠ none) ∧
    ((∃ r ∈ cfgOwner.recipients, r.key = "age1k".data) →
      hasPre "age1".data "age1k".data = true →
      addRecipient cfgOwner "B".data "age1k".data =
        (cfgOwner, some AddErr.duplicateRecipient)) ∧
    ((addRecipient cfgOwner "B".data "age1k".data).2 = none →
      (addRecipient cfgOwner "B".data "age1k".data).1.recipients =
        cfgOwner.recipients ++ [⟨"B".data, "age1k".data⟩]) :=
  C7_addRecipient_uniqueness cfgOwner "B".data "age1k".data (by decide)

/-- C9: `DecryptEnvValues` is not atomic. If decrypting the entries
before `e` succeeds and the loop body fails on `e` (unknown algorithm,
bad base64, or a decryption failure), the function returns an error
naming `e`'s key, while the slice is left with every earlier entry
already processed (encrypted ones decrypted in place) and `e` and every
later entry unchanged. -/
theorem C9_decryptEnv_partial_mutation
    (gcmOpen chaOpen : Bytes → Bytes → Bytes → Option Bytes)
    (b64dec : Bytes → Option Bytes) (key : Bytes)
    (pre post : List EnvEntry) (e : EnvEntry) (err : DecErr)
    (hpre : (decryptEnvValues gcmOpen chaOpen b64dec key pre).2 = none)
    (hnc : e.IsComment = false) (henc : e.Encrypted = true)
    (hf : decOne gcmOpen chaOpen b64dec key e = .error err) :
    decryptEnvValues gcmOpen chaOpen b64dec key (pre ++ e :: post) =
      ((decryptEnvValues gcmOpen chaOpen b64dec key pre).1 ++ e :: post,
        some err) ∧
    decErrKey err = e.Key := by
  refine ⟨?_, decOne_error_names_key gcmOpen chaOpen b64dec key e err hf⟩
  induction pre with
  | nil =>
    simp only [List.nil_append, decryptEnvValues, hnc, henc, Bool.not_true,
      Bool.or_self, Bool.false_eq_true, if_false, hf]
  | cons q qs ih =>
    by_cases hskip : (q.IsComment || !q.Encrypted) = true
    · have hpre' : (decryptEnvValues gcmOpen chaOpen b64dec key qs).2 = none := by
        simp only [decryptEnvValues, hskip, if_true] at hpre
        exact hpre
      simp only [List.cons_append, decryptEnvValues, hskip, if_true,
        List.append_eq, ih hpre']
    · cases hq : decOne gcmOpen chaOpen b64dec key q with
      | error qe =>
        exfalso
        simp only [decryptEnvValues, hskip, Bool.false_eq_true, if_false,
          hq] at hpre
        exact Option.noConfusion hpre
      | ok q2 =>
        have hpre' : (decryptEnvValues gcmOpen chaOpen b64dec key qs).2 = none := by
          simp only [decryptEnvValues, hskip, Bool.false_eq_true, if_false,
            hq] at hpre
          exact hpre
        simp only [List.cons_append, decryptEnvValues, hskip,
          Bool.false_eq_true, if_false, hq, List.append_eq, ih hpre']

/-- Witness for C9: a comment entry, then an entry with an unknown
algorithm id, then a plaintext entry. -/
theorem C9_decryptEnv_partial_mutation_witness :
    decryptEnvValues toyOpen toyOpen (fun c => some c) toyKey
      ([envCmt] ++ envBadAlgo :: [envPlain]) =
      ((decryptEnvValues toyOpen toyOpen (fun c => some c) toyKey [envCmt]).1
        ++ envBadAlgo :: [envPlain],
        some (DecErr.unsupportedAlgorithm "foo".data "K".data)) ∧
    decErrKey (DecErr.unsupportedAlgorithm "foo".data "K".data) =
      envBadAlgo.Key :=
  C9_decryptEnv_partial_mutation toyOpen toyOpen (fun c => some c) toyKey
    [envCmt] [envPlain] envBadAlgo
    (DecErr.unsupportedAlgorithm "foo".data "K".data)
    (by decide) (by decide) (by decide) (by rfl)

theorem handleDecryptOpen_parts (argon : Bytes → Bytes → Bytes)
    (gcmOpen chaOpen : Bytes → Bytes → Bytes → Option Bytes)
    (password salt : Bytes) (ab : Char) (ct : Bytes)
    (hsalt : salt.length = 16) :
    handleDecryptOpen argon gcmOpen chaOpen password (salt ++ ab :: ct) =
      match encryptorDecrypt gcmOpen chaOpen
          (if ab = Char.ofNat 1 then Alg.chacha20 else Alg.aesGCM) ct
          (argon password salt) with
      | .error e => .error (.cryptoFailure e)
      | .ok plaintext => .ok plaintext := by
  have hlen : (salt ++ ab :: ct).length = 17 + ct.length := by
    simp [hsalt]
    omega
  have h17 : ¬(salt ++ ab :: ct).length < 17 := by
    rw [hlen]
    omega
  have htake : (salt ++ ab :: ct).take 16 = salt := by
    rw [← hsalt]
    exact List.take_left salt (ab :: ct)
  have hdrop16 : (salt ++ ab :: ct).drop 16 = ab :: ct := by
    rw [← hsalt]
    exact List.drop_left salt (ab :: ct)
  have hdrop17 : (salt ++ ab :: ct).drop 17 = ct := by
    have he : salt ++ ab :: ct = (salt ++ [ab]) ++ ct := by simp
    have hl : (salt ++ [ab]).length = 17 := by simp [hsalt]
    rw [he, ← hl]
    exact List.drop_left (salt ++ [ab]) ct
  unfold handleDecryptOpen
  rw [if_neg h17]
  simp only [htake, hdrop16, hdrop17, List.headI]

/-- C1: symmetric envelope round-trip. For every plaintext and password,
sealing (fresh 16-byte salt, fresh 12-byte nonce, a KDF whose keys are 32
bytes, layout `salt ∥ algorithmByte ∥ nonce ∥ sealed`) followed by
opening with the same password returns exactly the plaintext, for both
`aes-gcm` and `chacha20`, given that each AEAD core opens what it
sealed. -/
theorem C1_symmetric_roundtrip (argon : Bytes → Bytes → Bytes)
    (gcmSeal chaSeal : Bytes → Bytes → Bytes → Bytes)
    (gcmOpen chaOpen : Bytes → Bytes → Bytes → Option Bytes)
    (salt nonce password plaintext algoStr : Bytes)
    (hsalt : salt.length = 16) (hnonce : nonce.length = 12)
    (hkey : ∀ pw s, (argon pw s).length = 32)
    (hgcm : ∀ k n p, gcmOpen k n (gcmSeal k n p) = some p)
    (hcha : ∀ k n p, chaOpen k n (chaSeal k n p) = some p)
    (halg : algoStr = "aes-gcm".data ∨ algoStr = "chacha20".data) :
    (handleEncryptSeal argon gcmSeal chaSeal salt nonce password plaintext
        algoStr).bind
      (handleDecryptOpen argon gcmOpen chaOpen password) = .ok plaintext := by
  have hk32 : (argon password salt).length = 32 := hkey password salt
  have htake12 : ∀ sealed : Bytes,
      (nonce ++ sealed).take 12 = nonce := by
    intro sealed
    rw [← hnonce]
    exact List.take_left nonce sealed
  have hdrop12 : ∀ sealed : Bytes,
      (nonce ++ sealed).drop 12 = sealed := by
    intro sealed
    rw [← hnonce]
    exact List.drop_left nonce sealed
  have hlen12 : ∀ sealed : Bytes, ¬(nonce ++ sealed).length < 12 := by
    intro sealed
    simp [hnonce]
  rcases halg with h | h <;> subst h
  · have henc : handleEncryptSeal argon gcmSeal chaSeal salt nonce password
        plaintext "aes-gcm".data =
        .ok (salt ++ Char.ofNat 0 ::
          (nonce ++ gcmSeal (argon password salt) nonce plaintext)) := by
      unfold handleEncryptSeal
      have hne : NewEncryptorStr "aes-gcm".data = some Alg.aesGCM := by decide
      rw [hne]
      simp only [encryptorEncrypt, AESGCMEncrypt, hk32]
      have hb : algoByte "aes-gcm".data = Char.ofNat 0 := by decide
      simp [hb]
    rw [henc]
    show handleDecryptOpen argon gcmOpen chaOpen password
      (salt ++ Char.ofNat 0 ::
        (nonce ++ gcmSeal (argon password salt) nonce plaintext)) = .ok plaintext
    rw [handleDecryptOpen_parts argon gcmOpen chaOpen password salt _ _ hsalt]
    have hab : ¬(Char.ofNat 0 = Char.ofNat 1) := by decide
    rw [if_neg hab]
    simp only [encryptorDecrypt, AESGCMDecrypt, hk32]
    rw [if_neg (by simp), if_neg (hlen12 _)]
    rw [htake12, hdrop12, hgcm]
  · have henc : handleEncryptSeal argon gcmSeal chaSeal salt nonce password
        plaintext "chacha20".data =
        .ok (salt ++ Char.ofNat 1 ::
          (nonce ++ chaSeal (argon password salt) nonce plaintext)) := by
      unfold handleEncryptSeal
      have hne : NewEncryptorStr "chacha20".data = some Alg.chacha20 := by decide
      rw [hne]
      simp only [encryptorEncrypt, ChaCha20Encrypt, hk32]
      have hb : algoByte "chacha20".data = Char.ofNat 1 := by decide
      simp [hb]
    rw [henc]
    show handleDecryptOpen argon gcmOpen chaOpen password
      (salt ++ Char.ofNat 1 ::
        (nonce ++ chaSeal (argon password salt) nonce plaintext)) = .ok plaintext
    rw [handleDecryptOpen_parts argon gcmOpen chaOpen password salt _ _ hsalt]
    rw [if_pos rfl]
    simp only [encryptorDecrypt, ChaCha20Decrypt, hk32]
    rw [if_neg (by simp), if_neg (hlen12 _)]
    rw [htake12, hdrop12, hcha]

/-- Witness for C1 with concrete primitives, salt, nonce, password and
plaintext under `aes-gcm`. -/
theorem C1_symmetric_roundtrip_witness :
    (List.replicate 16 's' : Bytes).length = 16 ∧
    (List.replicate 12 'n' : Bytes).length = 12 ∧
    (handleEncryptSeal toyArgon toySeal toySeal (List.replicate 16 's')
        (List.replicate 12 'n') "pass123".data "hello".data
        "aes-gcm".data).bind
      (handleDecryptOpen toyArgon toyOpen toyOpen "pass123".data) =
      .ok "hello".data :=
  ⟨by decide, by decide,
    C1_symmetric_roundtrip toyArgon toySeal toySeal toyOpen toyOpen
      (List.replicate 16 's') (List.replicate 12 'n') "pass123".data
      "hello".data "aes-gcm".data (by decide) (by decide)
      (fun pw s => by simp [toyArgon]) (fun _ _ _ => rfl) (fun _ _ _ => rfl)
      (Or.inl rfl)⟩

/-- C2 counterexample: the env file text ` A =1` (a key with surrounding
whitespace and no trailing newline) does not survive a parse/serialize
round trip byte-identically — the serializer trims the key and appends a
newline, producing `A=1\n`. -/
theorem C2_counterexample :
    writeEnvContent (parseEnvContent " A =1".data) ≠ " A =1".data ∧
    writeEnvContent (parseEnvContent " A =1".data) = "A=1\n".data :=
  ⟨by decide, by decide⟩

/-- C2 (amended): parsing then serializing an env file is byte-identical
for texts that are a sequence of newline-terminated lines (so the text is
empty or ends with `\n`), where no line ends in `\r` and every
`key=value` line's key carries no surrounding whitespace. Line order and
every line's bytes are reproduced verbatim; texts outside this shape are
normalized (keys trimmed, `\r` stripped, a final newline appended). -/
theorem C2_env_roundtrip_amended (ls : List Bytes)
    (h : ∀ l ∈ ls, '\n' ∉ l ∧ dropCR l = l ∧ keyTrimOK l = true) :
    writeEnvContent (parseEnvContent (joinNL ls)) = joinNL ls := by
  unfold parseEnvContent
  rw [scanLines_joinNL ls (fun l hl => ⟨(h l hl).1, (h l hl).2.1⟩)]
  unfold writeEnvContent joinNL
  rw [List.map_map]
  congr 1
  apply List.map_congr_left
  intro l hl
  simp only [Function.comp_apply]
  rw [renderEntry_parseLine l (h l hl).2.2]

/-- Witness for C2 (amended) on a four-line env file with an
`ENC`-shaped value, a comment, a comment with surrounding whitespace,
and a plain pair. -/
theorem C2_env_roundtrip_amended_witness :
    (∀ l ∈ ([
        "API_KEY=ENC[aes-gcm:Zm9v]".data, "# note".data, " # a=b".data,
        "DEBUG=true".data] : List Bytes),
      '\n' ∉ l ∧ dropCR l = l ∧ keyTrimOK l = true) ∧
    writeEnvContent (parseEnvContent (joinNL [
        "API_KEY=ENC[aes-gcm:Zm9v]".data, "# note".data, " # a=b".data,
        "DEBUG=true".data])) =
      joinNL ["API_KEY=ENC[aes-gcm:Zm9v]".data, "# note".data,
        " # a=b".data, "DEBUG=true".data] :=
  ⟨by decide,
    C2_env_roundtrip_amended
      ["API_KEY=ENC[aes-gcm:Zm9v]".data, "# note".data, " # a=b".data,
        "DEBUG=true".data]
      (by decide)⟩

theorem lookupF_some_mem (l : List (Bytes × FNode)) (p : Bytes) (n : FNode)
    (h : lookupF l p = some n) : (p, n) ∈ l := by
  induction l with
  | nil => simp [lookupF] at h
  | cons q rest ih =>
    by_cases hq : q.1 = p
    · simp only [lookupF, hq, if_true, Option.some.injEq] at h
      have : q = (p, n) := Prod.ext hq h
      rw [← this]
      exact List.mem_cons_self q rest
    · simp only [lookupF, hq, if_false] at h
      exact List.mem_cons_of_mem q (ih h)

theorem mem_setF (l : List (Bytes × FNode)) (p : Bytes) (n : FNode)
    (q : Bytes × FNode) (h : q ∈ setF l p n) : q ∈ l ∨ q = (p, n) := by
  induction l with
  | nil => simp [setF] at h; right; exact h
  | cons r rest ih =>
    by_cases hr : r.1 = p
    · simp only [setF, hr, if_true] at h
      rcases List.mem_cons.mp h with h1 | h1
      · right; exact h1
      · left; exact List.mem_cons_of_mem r h1
    · simp only [setF, hr, if_false] at h
      rcases List.mem_cons.mp h with h1 | h1
      · left; simp [h1]
      · rcases ih h1 with h2 | h2
        · left; exact List.mem_cons_of_mem r h2
        · right; exact h2

theorem pathsF_setF_subset (l : List (Bytes × FNode)) (p x : Bytes) (n : FNode)
    (h : x ∈ pathsF (setF l p n)) : x ∈ pathsF l ∨ x = p := by
  simp only [pathsF, List.mem_map] at h ⊢
  obtain ⟨q, hq, hx⟩ := h
  rcases mem_setF l p n q hq with h1 | h1
  · left; exact ⟨q, h1, hx⟩
  · right; rw [← hx, h1]

theorem nodup_setF (l : List (Bytes × FNode)) (p : Bytes) (n : FNode)
    (h : (pathsF l).Nodup) : (pathsF (setF l p n)).Nodup := by
  induction l with
  | nil => simp [setF, pathsF]
  | cons q rest ih =>
    simp only [pathsF, List.map_cons, List.nodup_cons] at h
    by_cases hq : q.1 = p
    · simp only [setF, hq, if_true, pathsF, List.map_cons, List.nodup_cons]
      exact ⟨hq ▸ h.1, h.2⟩
    · simp only [setF, hq, if_false, pathsF, List.map_cons, List.nodup_cons]
      refine ⟨?_, ih h.2⟩
      intro hmem
      rcases pathsF_setF_subset rest p q.1 n hmem with h1 | h1
      · exact h.1 h1
      · exact hq h1

theorem mem_eraseF (l : List (Bytes × FNode)) (p : Bytes)
    (q : Bytes × FNode) (h : q ∈ eraseF l p) : q ∈ l := by
  induction l with
  | nil => simp [eraseF] at h
  | cons r rest ih =>
    by_cases hr : r.1 = p
    · simp only [eraseF, hr, if_true] at h
      exact List.mem_cons_of_mem r h
    · simp only [eraseF, hr, if_false] at h
      rcases List.mem_cons.mp h with h1 | h1
      · simp [h1]
      · exact List.mem_cons_of_mem r (ih h1)

theorem nodup_eraseF (l : List (Bytes × FNode)) (p : Bytes)
    (h : (pathsF l).Nodup) : (pathsF (eraseF l p)).Nodup := by
  induction l with
  | nil => simp [eraseF, pathsF]
  | cons q rest ih =>
    simp only [pathsF, List.map_cons, List.nodup_cons] at h
    by_cases hq : q.1 = p
    · simp only [eraseF, hq, if_true]
      exact h.2
    · simp only [eraseF, hq, if_false, pathsF, List.map_cons, List.nodup_cons]
      refine ⟨?_, ih h.2⟩
      intro hmem
      simp only [pathsF, List.mem_map] at hmem
      obtain ⟨r, hr, hx⟩ := hmem
      exact h.1 (by
        simp only [pathsF, List.mem_map]
        exact ⟨r, mem_eraseF rest p r hr, hx⟩)

theorem not_mem_pathsF_eraseF (l : List (Bytes × FNode)) (p : Bytes)
    (h : (pathsF l).Nodup) : p ∉ pathsF (eraseF l p) := by
  induction l with
  | nil => simp [eraseF, pathsF]
  | cons q rest ih =>
    simp only [pathsF, List.map_cons, List.nodup_cons] at h
    by_cases hq : q.1 = p
    · simp only [eraseF, hq, if_true]
      rw [← hq]
      exact h.1
    · simp only [eraseF, hq, if_false, pathsF, List.map_cons]
      intro hmem
      rcases List.mem_cons.mp hmem with h1 | h1
      · exact hq h1.symm
      · exact ih h.2 h1

theorem fsRead_some (fs : FS) (m c : Bytes) (h : fsRead fs m = some c) :
    ∃ node, lookupF fs.files m = some node ∧ node.readable = true ∧
      node.content = c := by
  unfold fsRead at h
  cases hl : lookupF fs.files m with
  | none => rw [hl] at h; exact absurd h (by simp)
  | some n =>
    rw [hl] at h
    simp only at h
    by_cases hr : n.readable = true
    · rw [if_pos hr] at h
      simp only [Option.some.injEq] at h
      exact ⟨n, rfl, hr, h⟩
    · rw [if_neg hr] at h
      exact absurd h (by simp)

theorem fsRemove_subset (fs fs2 : FS) (p : Bytes)
    (h : fsRemove fs p = some fs2) : ∀ q ∈ fs2.files, q ∈ fs.files := by
  unfold fsRemove at h
  cases hl : lookupF fs.files p with
  | none => rw [hl] at h; exact absurd h (by simp)
  | some n =>
    rw [hl] at h
    simp only at h
    by_cases hrm : n.removable = true
    · rw [if_pos hrm] at h
      simp only [Option.some.injEq] at h
      subst h
      exact fun q hq => mem_eraseF fs.files p q hq
    · rw [if_neg hrm] at h
      exact absurd h (by simp)

theorem fsRemove_nodup (fs fs2 : FS) (p : Bytes)
    (h : fsRemove fs p = some fs2) (hn : (pathsF fs.files).Nodup) :
    (pathsF fs2.files).Nodup := by
  unfold fsRemove at h
  cases hl : lookupF fs.files p with
  | none => rw [hl] at h; exact absurd h (by simp)
  | some n =>
    rw [hl] at h
    simp only at h
    by_cases hrm : n.removable = true
    · rw [if_pos hrm] at h
      simp only [Option.some.injEq] at h
      subst h
      exact nodup_eraseF fs.files p hn
    · rw [if_neg hrm] at h
      exact absurd h (by simp)

theorem fsWrite_good (fs : FS) (p c : Bytes) (hg : goodFS fs) :
    goodFS (fsWrite fs p c) := by
  refine ⟨nodup_setF fs.files p ⟨true, true, c⟩ hg.1, ?_⟩
  intro q hq
  rcases mem_setF fs.files p ⟨true, true, c⟩ q hq with h1 | h1
  · exact hg.2 q h1
  · rw [h1]

theorem goodFS_remove (fs fs2 : FS) (p : Bytes) (hg : goodFS fs)
    (h : fsRemove fs p = some fs2) : goodFS fs2 :=
  ⟨fsRemove_nodup fs fs2 p h hg.1,
   fun q hq => hg.2 q (fsRemove_subset fs fs2 p h q hq)⟩

theorem encStep_some_or (O : Oracle) (keys : List Bytes) (fs fs' : FS)
    (m : Bytes) (h : encStep O keys fs m = some fs') :
    ∃ out, (fs' = fsWrite fs (m ++ podxExt) out ∨
      fsRemove (fsWrite fs (m ++ podxExt) out) m = some fs') := by
  unfold encStep at h
  cases hr : fsRead fs m with
  | none => rw [hr] at h; exact absurd h (by simp)
  | some content =>
    rw [hr] at h
    simp only at h
    cases ht : (if isEnvName (baseName m) = true then
        encryptEnvContent O keys content else O.ageEncrypt keys content) with
    | none => rw [ht] at h; exact absurd h (by simp)
    | some out =>
      rw [ht] at h
      simp only at h
      refine ⟨out, ?_⟩
      cases hrm : fsRemove (fsWrite fs (m ++ podxExt) out) m with
      | none =>
        rw [hrm] at h
        simp only [Option.some.injEq] at h
        exact Or.inl h.symm
      | some fs3 =>
        rw [hrm] at h
        simp only [Option.some.injEq] at h
        right
        rw [← h]

theorem encStep_grow (O : Oracle) (keys : List Bytes) (fs fs' : FS)
    (m : Bytes) (h : encStep O keys fs m = some fs') :
    ∀ q ∈ fs'.files, q ∈ fs.files ∨ endsWithPodx q.1 = true := by
  obtain ⟨out, hcase⟩ := encStep_some_or O keys fs fs' m h
  have hw : ∀ q ∈ (fsWrite fs (m ++ podxExt) out).files,
      q ∈ fs.files ∨ endsWithPodx q.1 = true := by
    intro q hq
    rcases mem_setF fs.files (m ++ podxExt) ⟨true, true, out⟩ q hq with h1 | h1
    · exact Or.inl h1
    · right
      rw [h1]
      exact hasSuf_append podxExt m
  rcases hcase with h1 | h1
  · rw [h1]; exact hw
  · intro q hq
    exact hw q (fsRemove_subset (fsWrite fs (m ++ podxExt) out) fs' m h1 q hq)

theorem encStep_good (O : Oracle) (keys : List Bytes) (fs fs' : FS)
    (m : Bytes) (hg : goodFS fs) (h : encStep O keys fs m = some fs') :
    goodFS fs' := by
  obtain ⟨out, hcase⟩ := encStep_some_or O keys fs fs' m h
  have hwg := fsWrite_good fs (m ++ podxExt) out hg
  rcases hcase with h1 | h1
  · rw [h1]; exact hwg
  · exact goodFS_remove _ _ m hwg h1

theorem encStep_removes (O : Oracle) (keys : List Bytes) (fs fs' : FS)
    (m : Bytes) (hg : goodFS fs) (_hnp : endsWithPodx m = false)
    (h : encStep O keys fs m = some fs') : m ∉ pathsF fs'.files := by
  unfold encStep at h
  cases hr : fsRead fs m with
  | none => rw [hr] at h; exact absurd h (by simp)
  | some content =>
    rw [hr] at h
    simp only at h
    cases ht : (if isEnvName (baseName m) = true then
        encryptEnvContent O keys content else O.ageEncrypt keys content) with
    | none => rw [ht] at h; exact absurd h (by simp)
    | some out =>
      rw [ht] at h
      simp only at h
      obtain ⟨node, hl, _, _⟩ := fsRead_some fs m content hr
      have hne : m ≠ m ++ podxExt := self_ne_append m podxExt (by decide)
      have hl2 : lookupF (fsWrite fs (m ++ podxExt) out).files m = some node := by
        unfold fsWrite
        rw [lookupF_setF_ne fs.files m (m ++ podxExt) ⟨true, true, out⟩ hne]
        exact hl
      have hrmv : node.removable = true := hg.2 (m, node) (lookupF_some_mem fs.files m node hl)
      have hrm : fsRemove (fsWrite fs (m ++ podxExt) out) m =
          some ⟨eraseF (fsWrite fs (m ++ podxExt) out).files m⟩ := by
        unfold fsRemove
        rw [hl2]
        simp only [hrmv, if_true]
      rw [hrm] at h
      simp only [Option.some.injEq] at h
      rw [← h]
      exact not_mem_pathsF_eraseF (fsWrite fs (m ++ podxExt) out).files m
        (nodup_setF fs.files (m ++ podxExt) ⟨true, true, out⟩ hg.1)

theorem encMatches_grow (O : Oracle) (keys : List Bytes) (ms : List Bytes) :
    ∀ (fs fs' : FS) (c c' : Nat),
      encMatches O keys fs c ms = (fs', c', none) →
      ∀ q ∈ fs'.files, q ∈ fs.files ∨ endsWithPodx q.1 = true := by
  induction ms with
  | nil =>
    intro fs fs' c c' h q hq
    simp only [encMatches, Prod.mk.injEq] at h
    rw [← h.1] at hq
    exact Or.inl hq
  | cons m ms ih =>
    intro fs fs' c c' h q hq
    by_cases hp : endsWithPodx m = true
    · simp only [encMatches, hp, if_true] at h
      exact ih fs fs' c c' h q hq
    · simp only [encMatches, hp, Bool.false_eq_true, if_false] at h
      cases hs : encStep O keys fs m with
      | none =>
        rw [hs] at h
        simp only [Prod.mk.injEq] at h
        exact absurd h.2.2 (by simp)
      | some fs2 =>
        rw [hs] at h
        rcases ih fs2 fs' (c + 1) c' h q hq with h1 | h1
        · exact encStep_grow O keys fs fs2 m hs q h1
        · exact Or.inr h1

theorem encMatches_good (O : Oracle) (keys : List Bytes) (ms : List Bytes) :
    ∀ (fs fs' : FS) (c c' : Nat), goodFS fs →
      encMatches O keys fs c ms = (fs', c', none) → goodFS fs' := by
  induction ms with
  | nil =>
    intro fs fs' c c' hg h
    simp only [encMatches, Prod.mk.injEq] at h
    rw [← h.1]
    exact hg
  | cons m ms ih =>
    intro fs fs' c c' hg h
    by_cases hp : endsWithPodx m = true
    · simp only [encMatches, hp, if_true] at h
      exact ih fs fs' c c' hg h
    · simp only [encMatches, hp, Bool.false_eq_true, if_false] at h
      cases hs : encStep O keys fs m with
      | none =>
        rw [hs] at h
        simp only [Prod.mk.injEq] at h
        exact absurd h.2.2 (by simp)
      | some fs2 =>
        rw [hs] at h
        exact ih fs2 fs' (c + 1) c' (encStep_good O keys fs fs2 m hg hs) h

theorem encMatches_removed (O : Oracle) (keys : List Bytes) (ms : List Bytes) :
    ∀ (fs fs' : FS) (c c' : Nat), goodFS fs →
      encMatches O keys fs c ms = (fs', c', none) →
      ∀ m ∈ ms, endsWithPodx m = false → m ∉ pathsF fs'.files := by
  induction ms with
  | nil =>
    intro fs fs' c c' _ _ m hm
    simp at hm
  | cons m0 ms ih =>
    intro fs fs' c c' hg h m hm hmp
    by_cases hp : endsWithPodx m0 = true
    · simp only [encMatches, hp, if_true] at h
      rcases List.mem_cons.mp hm with h1 | h1
      · rw [h1] at hmp
        rw [hmp] at hp
        exact absurd hp (by simp)
      · exact ih fs fs' c c' hg h m h1 hmp
    · simp only [encMatches, hp, Bool.false_eq_true, if_false] at h
      cases hs : encStep O keys fs m0 with
      | none =>
        rw [hs] at h
        simp only [Prod.mk.injEq] at h
        exact absurd h.2.2 (by simp)
      | some fs2 =>
        rw [hs] at h
        rcases List.mem_cons.mp hm with h1 | h1
        · subst h1
          intro hmem
          simp only [pathsF, List.mem_map] at hmem
          obtain ⟨q, hq, hqx⟩ := hmem
          rcases encMatches_grow O keys ms fs2 fs' (c + 1) c' h q hq with h2 | h2
          · exact encStep_removes O keys fs fs2 m hg hmp hs
              (by simp only [pathsF, List.mem_map]; exact ⟨q, h2, hqx⟩)
          · rw [hqx] at h2
            rw [h2] at hmp
            exact absurd hmp (by simp)
        · exact ih fs2 fs' (c + 1) c'
            (encStep_good O keys fs fs2 m0 hg hs) h m h1 hmp

theorem encMatches_all_podx (O : Oracle) (keys : List Bytes) (ms : List Bytes) :
    ∀ (fs : FS) (c : Nat), (∀ m ∈ ms, endsWithPodx m = true) →
      encMatches O keys fs c ms = (fs, c, none) := by
  induction ms with
  | nil => intro fs c _; rfl
  | cons m ms ih =>
    intro fs c h
    have hm : endsWithPodx m = true := h m (by simp)
    simp only [encMatches, hm, if_true]
    exact ih fs c (fun x hx => h x (List.mem_cons_of_mem m hx))

theorem encPatterns_clean (O : Oracle) (keys : List Bytes) (ps : List Bytes) :
    ∀ (fs fs' : FS) (c c' : Nat), goodFS fs →
      encPatterns O keys fs c ps = (fs', c', none) →
      goodFS fs' ∧
      (∀ q ∈ fs'.files, q ∈ fs.files ∨ endsWithPodx q.1 = true) ∧
      (∀ p ∈ ps, O.badPat p = true ∨ cleanFor O p fs') := by
  induction ps with
  | nil =>
    intro fs fs' c c' hg h
    simp only [encPatterns, Prod.mk.injEq] at h
    rw [← h.1]
    exact ⟨hg, fun q hq => Or.inl hq, by simp⟩
  | cons p ps ih =>
    intro fs fs' c c' hg h
    by_cases hb : O.badPat p = true
    · have hgl : glob O fs p = none := by simp [glob, hb]
      simp only [encPatterns, hgl] at h
      obtain ⟨h1, h2, h3⟩ := ih fs fs' c c' hg h
      refine ⟨h1, h2, ?_⟩
      intro p' hp'
      rcases List.mem_cons.mp hp' with he | he
      · subst he; exact Or.inl hb
      · exact h3 p' he
    · have hbf : O.badPat p = false := by simpa using hb
      have hgl : glob O fs p =
          some ((pathsF fs.files).filter (fun x => O.patMatch p x)) := by
        simp [glob, hbf]
      simp only [encPatterns, hgl] at h
      cases hm : encMatches O keys fs c
          ((pathsF fs.files).filter (fun x => O.patMatch p x)) with
      | mk fs1 rest =>
        obtain ⟨c1, r1⟩ := rest
        rw [hm] at h
        cases r1 with
        | some e =>
          simp only [Prod.mk.injEq] at h
          exact absurd h.2.2 (by simp)
        | none =>
          simp only at h
          have hg1 : goodFS fs1 := encMatches_good O keys _ fs fs1 c c1 hg hm
          have hgrow1 := encMatches_grow O keys _ fs fs1 c c1 hm
          have hrem := encMatches_removed O keys _ fs fs1 c c1 hg hm
          have hclean1 : cleanFor O p fs1 := by
            intro q hq hmatch
            by_cases hqp : endsWithPodx q.1 = true
            · exact hqp
            · exfalso
              have hqf : endsWithPodx q.1 = false := by simpa using hqp
              rcases hgrow1 q hq with hin | hpod
              · have hmem : q.1 ∈ (pathsF fs.files).filter
                    (fun x => O.patMatch p x) := by
                  apply List.mem_filter.mpr
                  refine ⟨?_, hmatch⟩
                  simp only [pathsF, List.mem_map]
                  exact ⟨q, hin, rfl⟩
                refine hrem q.1 hmem hqf ?_
                simp only [pathsF, List.mem_map]
                exact ⟨q, hq, rfl⟩
              · rw [hpod] at hqf
                exact absurd hqf (by simp)
          obtain ⟨hgood2, hgrow2, hclean2⟩ := ih fs1 fs' c1 c' hg1 h
          refine ⟨hgood2, ?_, ?_⟩
          · intro q hq
            rcases hgrow2 q hq with h1 | h1
            · exact hgrow1 q h1
            · exact Or.inr h1
          · intro p' hp'
            rcases List.mem_cons.mp hp' with he | he
            · subst he
              right
              intro q hq hmatch
              rcases hgrow2 q hq with h1 | h1
              · exact hclean1 q h1 hmatch
              · exact h1
            · exact hclean2 p' he

theorem encPatterns_noop (O : Oracle) (keys : List Bytes) (ps : List Bytes) :
    ∀ (fs : FS) (c : Nat),
      (∀ p ∈ ps, O.badPat p = true ∨ cleanFor O p fs) →
      encPatterns O keys fs c ps = (fs, c, none) := by
  induction ps with
  | nil => intro fs c _; rfl
  | cons p ps ih =>
    intro fs c h
    by_cases hb : O.badPat p = true
    · have hgl : glob O fs p = none := by simp [glob, hb]
      simp only [encPatterns, hgl]
      exact ih fs c (fun x hx => h x (List.mem_cons_of_mem p hx))
    · have hbf : O.badPat p = false := by simpa using hb
      have hc : cleanFor O p fs := by
        rcases h p (by simp) with h1 | h1
        · exact absurd h1 hb
        · exact h1
      have hgl : glob O fs p =
          some ((pathsF fs.files).filter (fun x => O.patMatch p x)) := by
        simp [glob, hbf]
      have hall : ∀ m ∈ (pathsF fs.files).filter (fun x => O.patMatch p x),
          endsWithPodx m = true := by
        intro m hm
        obtain ⟨hmem, hmatch⟩ := List.mem_filter.mp hm
        simp only [pathsF, List.mem_map] at hmem
        obtain ⟨q, hq, hqx⟩ := hmem
        rw [← hqx]
        exact hc q hq (by rw [hqx]; exact hmatch)
      simp only [encPatterns, hgl,
        encMatches_all_podx O keys _ fs c hall]
      exact ih fs c (fun x hx => h x (List.mem_cons_of_mem p hx))

/-- C6: project batch idempotence. If the filesystem is well formed
(unique paths, all files removable, so every processed plaintext is
deleted) and a run of `EncryptAll` succeeds in full, then running
`EncryptAll` again on the resulting state changes no file and returns a
count of 0: every remaining match carries the `.podx` extension and is
skipped, and the deleted plaintext files no longer appear in any glob
result. -/
theorem C6_encrypt_all_idempotent (O : Oracle) (cfg : Config) (fs fs1 : FS)
    (n : Nat) (hg : goodFS fs)
    (h1 : encryptAll O cfg fs = (fs1, n, none)) :
    encryptAll O cfg fs1 = (fs1, 0, none) := by
  unfold encryptAll at h1 ⊢
  by_cases hr : cfg.recipients.length = 0
  · rw [if_pos hr] at h1
    simp only [Prod.mk.injEq] at h1
    exact absurd h1.2.2 (by simp)
  · rw [if_neg hr] at h1 ⊢
    obtain ⟨hgood, hgrow, hclean⟩ :=
      encPatterns_clean O (cfg.recipients.map Recipient.key) cfg.secrets
        fs fs1 0 n hg h1
    exact encPatterns_noop O (cfg.recipients.map Recipient.key) cfg.secrets
      fs1 0 hclean

/-- Witness for C6: a one-file project is encrypted in full, and a second
run is a no-op with count 0. -/
theorem C6_encrypt_all_idempotent_witness :
    goodFS fsPlain ∧
    encryptAll oracleId cfgOwner fsPlain = (fsEncd, 1, none) ∧
    encryptAll oracleId cfgOwner fsEncd = (fsEncd, 0, none) :=
  ⟨⟨by decide, by decide⟩, by decide,
    C6_encrypt_all_idempotent oracleId cfgOwner fsPlain fsEncd 1
      ⟨by decide, by decide⟩ (by decide)⟩
